import Mathlib

/-!
Shallow embedding of the jquants-daily-report data pipeline: the
SQLite-backed expiring cache (data/cache.py), the data fetcher
(data/fetcher.py), the weekly aggregator (data/weekly_aggregator.py),
the technical analyzer (analysis/technical.py), the market analyzer
(analysis/market.py) and the stock ranking analyzer (analysis/stocks.py).

Modelling conventions:
- pandas DataFrames become typed lists of rows; prices are rationals;
  nullable columns are Option values (a NaN cell is none).
- Python dates become their proleptic Gregorian ordinal, an integer;
  ordinal 1 is a Monday, so the Python weekday of ordinal d is
  (d - 1) mod 7, Monday = 0 .. Sunday = 6.
- the SQLite cache table becomes an association list keyed by the
  unique cache_key column; pickling is the identity on the modelled
  tables, so a stored table deserializes to itself.
-/

namespace JQR

/-- Python date.weekday: Monday = 0 .. Sunday = 6.  Ordinal 1
(January 1 of year 1) is a Monday. -/
def weekday (d : Int) : Int := (d - 1) % 7

/-- WeeklyDataAggregator.get_week_trading_days: Monday of the week of
weekEnd, then the weekdays of that week that are at most weekEnd. -/
def getWeekTradingDays (weekEnd : Int) : List Int :=
  let weekStart := weekEnd - weekday weekEnd
  (List.range 5).filterMap (fun (i : Nat) =>
    let day := weekStart + (i : Int)
    if day ≤ weekEnd ∧ weekday day < 5 then some day else none)

theorem getWeekTradingDays_canonical (weekEnd : Int) :
    getWeekTradingDays weekEnd =
      (List.range 5).filterMap (fun (i : Nat) =>
        if (i : Int) ≤ (weekEnd - 1) % 7 then
          some (weekEnd - (weekEnd - 1) % 7 + (i : Int))
        else none) := by
  unfold getWeekTradingDays weekday
  apply List.filterMap_congr
  intro i hi
  have hi5 : i < 5 := by simpa using hi
  by_cases hle : (i : Int) ≤ (weekEnd - 1) % 7
  · rw [if_pos hle, if_pos]
    refine ⟨by omega, ?_⟩
    show (weekEnd - (weekEnd - 1) % 7 + (i : Int) - 1) % 7 < 5
    omega
  · rw [if_neg hle, if_neg]
    intro h
    exact hle (by omega)

/-- C9: for every week_end date, including a Saturday or Sunday,
get_week_trading_days returns a non-empty list; it never includes a
Saturday or Sunday; and for a weekend week_end it returns exactly the
five weekday dates of that calendar week, the same list it returns for
that week Friday. -/
theorem getWeekTradingDays_weekend_safe (weekEnd : Int) :
    getWeekTradingDays weekEnd ≠ [] ∧
    (∀ d ∈ getWeekTradingDays weekEnd, weekday d < 5) ∧
    (5 ≤ weekday weekEnd →
      getWeekTradingDays weekEnd
        = getWeekTradingDays (weekEnd - (weekday weekEnd - 4)) ∧
      (getWeekTradingDays weekEnd).length = 5) := by
  have hb : 0 ≤ (weekEnd - 1) % 7 ∧ (weekEnd - 1) % 7 < 7 := by
    constructor <;> omega
  refine ⟨?_, ?_, ?_⟩
  · rw [getWeekTradingDays_canonical, show List.range 5 = [0, 1, 2, 3, 4] from rfl]
    simp only [List.filterMap]
    rw [if_pos (by omega : ((0 : Nat) : Int) ≤ (weekEnd - 1) % 7)]
    simp
  · intro d hd
    rw [getWeekTradingDays_canonical] at hd
    simp only [List.mem_filterMap, List.mem_range] at hd
    obtain ⟨a, ha5, hfa⟩ := hd
    by_cases hle : (a : Int) ≤ (weekEnd - 1) % 7
    · rw [if_pos hle, Option.some_inj] at hfa
      subst hfa
      show (weekEnd - (weekEnd - 1) % 7 + (a : Int) - 1) % 7 < 5
      omega
    · rw [if_neg hle] at hfa
      exact absurd hfa (by simp)
  · intro hwk
    have hw56 : (weekEnd - 1) % 7 = 5 ∨ (weekEnd - 1) % 7 = 6 := by
      unfold weekday at hwk
      omega
    have key : ∀ e : Int, 4 ≤ (e - 1) % 7 →
        getWeekTradingDays e
          = [e - (e - 1) % 7, e - (e - 1) % 7 + 1, e - (e - 1) % 7 + 2,
             e - (e - 1) % 7 + 3, e - (e - 1) % 7 + 4] := by
      intro e he
      rw [getWeekTradingDays_canonical, show List.range 5 = [0, 1, 2, 3, 4] from rfl]
      simp only [List.filterMap]
      rw [if_pos (by omega : ((0 : Nat) : Int) ≤ (e - 1) % 7),
          if_pos (by omega : ((1 : Nat) : Int) ≤ (e - 1) % 7),
          if_pos (by omega : ((2 : Nat) : Int) ≤ (e - 1) % 7),
          if_pos (by omega : ((3 : Nat) : Int) ≤ (e - 1) % 7),
          if_pos (by omega : ((4 : Nat) : Int) ≤ (e - 1) % 7)]
      norm_num
    have h1 : getWeekTradingDays weekEnd = _ := key weekEnd (by omega)
    have hfri : 4 ≤ (weekEnd - (weekday weekEnd - 4) - 1) % 7 := by
      unfold weekday
      omega
    have h2 := key _ hfri
    rw [h1, h2]
    unfold weekday at *
    constructor
    · have h4 : (weekEnd - ((weekEnd - 1) % 7 - 4) - 1) % 7 = 4 := by omega
      rw [h4]
      rcases hw56 with h | h <;> rw [h] <;> norm_num <;> omega
    · rfl

/-- Witness for C9 at week_end = ordinal 6, a Saturday: the weekend
hypothesis holds there and the returned week is the same as for the
preceding Friday, with all five weekdays present. -/
theorem getWeekTradingDays_weekend_safe_witness :
    5 ≤ weekday 6 ∧
    (getWeekTradingDays 6 = getWeekTradingDays (6 - (weekday 6 - 4)) ∧
      (getWeekTradingDays 6).length = 5) ∧
    getWeekTradingDays 6 ≠ [] :=
  ⟨by decide, (getWeekTradingDays_weekend_safe 6).2.2 (by decide),
    (getWeekTradingDays_weekend_safe 6).1⟩

/-! Expiring key-value cache (data/cache.py). -/

/-- A serialized tabular payload: a list of rows of cells.  A pandas
DataFrame is empty exactly when it has no rows. -/
abbrev Table := List (List String)

/-- One row of the cache_entries SQLite table.  The pickled blob is
modelled by the stored table itself, so deserializing a row written by
cacheSet always succeeds and returns the stored table. -/
structure CacheEntry where
  table : Table
  rowCount : Nat
  createdAt : Int
  expiresAt : Int
deriving Repr, DecidableEq

/-- The cache_entries table: an association list over the unique
cache_key column. -/
structure CacheState where
  entries : List (String × CacheEntry)
deriving Repr, DecidableEq

/-- SELECT data, expires_at, row_count FROM cache_entries WHERE
cache_key = key, on the UNIQUE cache_key column. -/
def lookupEntry (s : CacheState) (key : String) : Option CacheEntry :=
  (s.entries.find? (fun e => e.1 == key)).map (fun e => e.2)

/-- CacheManager._remove_entry: DELETE FROM cache_entries WHERE
cache_key = key. -/
def removeEntry (s : CacheState) (key : String) : CacheState :=
  { entries := s.entries.filter (fun e => !(e.1 == key)) }

/-- CacheManager.get at time now: a missing key is a miss; a present
key whose expires_at is not strictly in the future is deleted and
reported as a miss; otherwise the stored table is returned.  The pair
is (returned value, cache state after the call). -/
def cacheGet (s : CacheState) (key : String) (now : Int) :
    Option Table × CacheState :=
  match lookupEntry s key with
  | none => (none, s)
  | some e =>
    if now ≥ e.expiresAt then (none, removeEntry s key)
    else (some e.table, s)

/-- CacheManager.set at time now: an empty table is rejected without
touching the store; otherwise the row for key is replaced (INSERT OR
REPLACE on the unique key) with a fresh TTL starting at now.  Times are
measured in hours so that expires_at = now + ttl. -/
def cacheSet (s : CacheState) (key : String) (data : Table)
    (ttlHours : Option Int) (defaultTtlHours : Int) (now : Int) : CacheState :=
  if data.isEmpty then s
  else
    let ttl := ttlHours.getD defaultTtlHours
    { entries := (removeEntry s key).entries ++
        [(key, { table := data, rowCount := data.length,
                 createdAt := now, expiresAt := now + ttl })] }

theorem lookupEntry_removeEntry (s : CacheState) (key : String) :
    lookupEntry (removeEntry s key) key = none := by
  cases hf : (s.entries.filter (fun e => !(e.1 == key))).find?
      (fun e => e.1 == key) with
  | none => simp [lookupEntry, removeEntry, hf]
  | some x =>
    have hx := List.find?_some hf
    have hmem := (List.mem_filter.mp (List.mem_of_find?_eq_some hf)).2
    rw [hx] at hmem
    simp at hmem

/-- C2: for every key and cache state, get returns the stored table
iff the current time is strictly before the entry expires_at; on a
present-but-expired entry it returns none and deletes the row, so the
entry is gone afterwards. -/
theorem cacheGet_ttl (s : CacheState) (key : String) (now : Int) :
    ((cacheGet s key now).1
      = (lookupEntry s key).bind
          (fun e => if now < e.expiresAt then some e.table else none)) ∧
    (∀ e, lookupEntry s key = some e → ¬ now < e.expiresAt →
      (cacheGet s key now).1 = none ∧
      lookupEntry (cacheGet s key now).2 key = none) := by
  constructor
  · cases hl : lookupEntry s key with
    | none => simp [cacheGet, hl]
    | some e =>
      by_cases hexp : now ≥ e.expiresAt
      · simp [cacheGet, hl, if_pos hexp, show ¬ now < e.expiresAt by omega]
      · simp [cacheGet, hl, if_neg hexp, show now < e.expiresAt by omega]
  · intro e hl hexp
    have h1 : cacheGet s key now = (none, removeEntry s key) := by
      simp [cacheGet, hl, show now ≥ e.expiresAt by omega]
    rw [h1]
    exact ⟨rfl, lookupEntry_removeEntry s key⟩

/-- Witness for C2: a store holding key k with expires_at 10, queried
at time 10 (not strictly before expiry), returns none and the row is
gone from the resulting state. -/
theorem cacheGet_ttl_witness :
    (cacheGet ⟨[("k", ⟨[["a"]], 1, 0, 10⟩)]⟩ "k" 10).1 = none ∧
    lookupEntry (cacheGet ⟨[("k", ⟨[["a"]], 1, 0, 10⟩)]⟩ "k" 10).2 "k" = none :=
  (cacheGet_ttl ⟨[("k", ⟨[["a"]], 1, 0, 10⟩)]⟩ "k" 10).2
    ⟨[["a"]], 1, 0, 10⟩ (by decide) (by decide)

/-- C7: set with an empty table leaves the store completely unchanged,
so any subsequent get returns exactly what it returned before; and set
never persists an empty table: if no stored entry is empty beforehand,
none is afterwards, whatever table is written. -/
theorem cacheSet_empty_noop (s : CacheState) (key k2 : String)
    (ttl : Option Int) (dflt now now2 : Int) :
    cacheSet s key [] ttl dflt now = s ∧
    cacheGet (cacheSet s key [] ttl dflt now) k2 now2 = cacheGet s k2 now2 ∧
    ((∀ kv ∈ s.entries, kv.2.table ≠ []) →
      ∀ data : Table, ∀ kv ∈ (cacheSet s key data ttl dflt now).entries,
        kv.2.table ≠ []) := by
  have hnoop : cacheSet s key [] ttl dflt now = s := by
    unfold cacheSet
    rfl
  refine ⟨hnoop, by rw [hnoop], ?_⟩
  intro hinv data kv hkv
  unfold cacheSet at hkv
  by_cases hemp : data.isEmpty
  · rw [if_pos hemp] at hkv
    exact hinv kv hkv
  · rw [if_neg hemp] at hkv
    simp only [List.mem_append, List.mem_singleton] at hkv
    rcases hkv with hkv | hkv
    · exact hinv kv (List.mem_of_mem_filter hkv)
    · subst hkv
      simpa [List.isEmpty_iff] using hemp

/-- Witness for C7: inserting an empty table for key k into a store
holding one non-empty entry changes nothing, and the no-empty-table
invariant is preserved by a subsequent non-empty write. -/
theorem cacheSet_empty_noop_witness :
    cacheSet ⟨[("k", ⟨[["a"]], 1, 0, 10⟩)]⟩ "k" [] none 24 5
      = ⟨[("k", ⟨[["a"]], 1, 0, 10⟩)]⟩ ∧
    (∀ kv ∈ (cacheSet ⟨[("k", ⟨[["a"]], 1, 0, 10⟩)]⟩ "k" [["x"]] none 24 5).entries,
      kv.2.table ≠ []) :=
  ⟨(cacheSet_empty_noop ⟨[("k", ⟨[["a"]], 1, 0, 10⟩)]⟩ "k" "k" none 24 5 0).1,
    (cacheSet_empty_noop ⟨[("k", ⟨[["a"]], 1, 0, 10⟩)]⟩ "k" "k" none 24 5 0).2.2
      (by decide) [["x"]]⟩

/-! Data fetcher (data/fetcher.py). -/

/-- Shape of a value the API client method can return, as discriminated
by fetch_daily_quotes: a ready DataFrame, a JSON object whose fields
hold record lists, a bare record list, or a scalar value that pandas
wraps into a one-row frame.  A JSON object lacking the expected key
also falls through to the one-row wrapping; its one-row rendering keeps
the field names, which no claim depends on. -/
inductive ApiValue where
  | frame (t : Table)
  | object (fields : List (String × Table))
  | records (t : Table)
  | scalar (row : List String)
deriving Repr, DecidableEq

/-- The branch ladder of fetch_daily_quotes that coerces the response
into a DataFrame. -/
def normalizeDailyQuotes (v : ApiValue) : Table :=
  match v with
  | .frame t => t
  | .object fields =>
    match fields.find? (fun f => f.1 == "daily_quotes") with
    | some f => f.2
    | none => [fields.map (fun f => f.1)]
  | .records t => t
  | .scalar row => [row]

/-- Cache key derived from the date and the optional instrument code;
the strftime date is rendered as the date ordinal. -/
def dailyQuotesKey (day : Int) (code : Option String) : String :=
  "daily_quotes_" ++ toString day ++
    (match code with | some c => "_" ++ c | none => "")

/-- DataFetcher.fetch_daily_quotes at time now.  The API interaction is
the apiCall argument: the value the client method returns, or
Except.error when the call raises (any network, deserialization or
processing failure inside the client); DataFetcher._make_api_call
catches every such exception, logs it and yields None, upon which
fetch_daily_quotes returns an empty DataFrame.  The result type
Table × CacheState records that no exception reaches the caller. -/
def fetchDailyQuotes (cache : CacheState) (now day : Int)
    (code : Option String) (forceRefresh : Bool)
    (apiCall : Except String ApiValue) : Table × CacheState :=
  let key := dailyQuotesKey day code
  let hit : Option Table × CacheState :=
    if forceRefresh then (none, cache) else cacheGet cache key now
  match hit.1 with
  | some t => (t, hit.2)
  | none =>
    match apiCall with
    | .error _ => ([], hit.2)
    | .ok v =>
      let df := normalizeDailyQuotes v
      if df.isEmpty then (df, hit.2)
      else (df, cacheSet hit.2 key df (some 24) 24 now)

/-- C3: any failure of the API call (network, deserialization or
processing, all raised inside the client call and caught by
_make_api_call) yields an empty table from fetch_daily_quotes whenever
the cache cannot serve the request; the embedding returns a plain
table, never an exception. -/
theorem fetchDailyQuotes_failure_empty (cache : CacheState)
    (now day : Int) (code : Option String) (force : Bool) (err : String)
    (hmiss : force = true ∨
      (cacheGet cache (dailyQuotesKey day code) now).1 = none) :
    (fetchDailyQuotes cache now day code force (.error err)).1 = [] := by
  unfold fetchDailyQuotes
  rcases hmiss with hf | hm
  · subst hf
    rfl
  · rcases hforce : force
    · simp only [hforce, if_neg (Bool.false_ne_true), if_false, hm]
    · rfl

/-- Witness for C3: an empty cache store and a failing API call give
the empty table. -/
theorem fetchDailyQuotes_failure_empty_witness :
    (fetchDailyQuotes ⟨[]⟩ 0 1 none false (.error "network down")).1 = [] :=
  fetchDailyQuotes_failure_empty ⟨[]⟩ 0 1 none false "network down"
    (Or.inr (by decide))

/-! API client (api/client.py) and authenticator (api/auth.py). -/

/-- The token cache of JQuantsAuthenticator: the refresh token and the
bearer (ID) token. -/
structure TokenState where
  refreshToken : Option String
  idToken : Option String
deriving Repr, DecidableEq

/-- The exception classes _make_request can raise.  In the source,
AuthenticationError subclasses Exception directly, while
NotFoundError and RateLimitError subclass APIError, and transport or
JSON failures are re-raised as APIError. -/
inductive ReqError where
  | authenticationError
  | notFoundError
  | rateLimitError
  | apiError
deriving Repr, DecidableEq

/-- The tenacity retry predicate on _make_request:
retry_if_exception_type over RequestException and APIError.
AuthenticationError is neither, so it is never retried. -/
def retryableError : ReqError → Bool
  | .authenticationError => false
  | _ => true

/-- One HTTP exchange as seen by a single attempt of _make_request:
either the transport fails, or a status code arrives with, for
successful statuses, an optional parsed JSON body. -/
inductive HttpOutcome where
  | transportFailure
  | status (codeNum : Nat) (jsonBody : Option Table)
deriving Repr, DecidableEq

/-- The body of _make_request for one attempt: a 401 invalidates the
cached bearer token (JQuantsAuthenticator.invalidate_tokens) and
raises AuthenticationError; 404, 429 and 5xx raise their APIError
subclasses; other error statuses raise through raise_for_status and
are wrapped as APIError, as is an unparsable JSON body. -/
def singleAttempt (ts : TokenState) (o : HttpOutcome) :
    TokenState × Except ReqError Table :=
  match o with
  | .transportFailure => (ts, .error .apiError)
  | .status n body =>
    if n == 401 then ({ ts with idToken := none }, .error .authenticationError)
    else if n == 404 then (ts, .error .notFoundError)
    else if n == 429 then (ts, .error .rateLimitError)
    else if 500 ≤ n then (ts, .error .apiError)
    else if 400 ≤ n then (ts, .error .apiError)
    else match body with
      | some j => (ts, .ok j)
      | none => (ts, .error .apiError)

/-- The tenacity loop around _make_request with stop_after_attempt 3
and reraise: successive attempts consume successive outcomes from the
environment; a non-retryable exception, or exhaustion of the attempt
budget, surfaces immediately.  The third component counts the attempts
actually made. -/
def makeRequestAux (ts : TokenState) (outcomes : List HttpOutcome) :
    Nat → TokenState × Except ReqError Table × Nat
  | 0 => (ts, .error .apiError, 0)
  | remaining + 1 =>
    match outcomes with
    | [] => (ts, .error .apiError, 0)
    | o :: os =>
      let step := singleAttempt ts o
      match step.2 with
      | .ok j => (step.1, .ok j, 1)
      | .error e =>
        if remaining == 0 || !retryableError e then (step.1, .error e, 1)
        else
          let rest := makeRequestAux step.1 os remaining
          (rest.1, rest.2.1, rest.2.2 + 1)

/-- JQuantsClient._make_request under its retry decorator. -/
def makeRequest (ts : TokenState) (outcomes : List HttpOutcome) :
    TokenState × Except ReqError Table × Nat :=
  makeRequestAux ts outcomes 3

/-- Counterexample to C8: with a valid cached bearer token, a 401
followed by an environment that would answer a retry with 200 OK ends
after a single attempt with AuthenticationError; no retry with a
renewed token happens (the attempt count is 1, not 2). -/
theorem makeRequest_401_no_retry_counterexample :
    makeRequest ⟨some "refresh", some "id"⟩
        [.status 401 none, .status 200 (some [["row"]])]
      = (⟨some "refresh", none⟩, .error .authenticationError, 1) ∧
    (makeRequest ⟨some "refresh", some "id"⟩
        [.status 401 none, .status 200 (some [["row"]])]).2.2 ≠ 2 := by
  constructor
  · rfl
  · decide

/-- C8 amended: a 401 response invalidates the cached bearer token and
raises AuthenticationError after exactly one attempt, whatever answers
the environment holds for further attempts; AuthenticationError is not
among the exception classes the retry decorator retries, so
authentication failures are never retried automatically. -/
theorem makeRequest_401_invalidates_and_aborts (ts : TokenState)
    (b : Option Table) (os : List HttpOutcome) :
    makeRequest ts (.status 401 b :: os)
      = ({ ts with idToken := none }, .error .authenticationError, 1) ∧
    retryableError .authenticationError = false :=
  ⟨rfl, rfl⟩

/-! Stock ranking analyzer (analysis/stocks.py). -/

/-- One row of the daily price DataFrame consumed by the market and
stock analyzers: nullable ChangeRate plus the ranking columns. -/
structure PriceRow where
  code : String
  name : String
  close : Rat
  changeRate : Option Rat
  volume : Rat
  turnoverValue : Rat
deriving Repr, DecidableEq

/-- StockAnalyzer._convert_to_stock_info restricted to the columns the
claims touch; change_pct reads ChangeRate with NaN as 0 exactly as the
float conversion in the source does.  The derived absolute price
change column is not modelled. -/
structure StockInfo where
  code : String
  name : String
  close : Rat
  changePct : Rat
  volume : Rat
  turnoverValue : Rat
deriving Repr, DecidableEq

def convertToStockInfo (rows : List PriceRow) : List StockInfo :=
  rows.map (fun r =>
    { code := r.code, name := r.name, close := r.close,
      changePct := r.changeRate.getD 0, volume := r.volume,
      turnoverValue := r.turnoverValue })

/-- pandas nsmallest(n, col): the n smallest rows by the column with
ties kept in first-occurrence order, here a stable ascending merge
sort followed by take n. -/
def nsmallestBy (key : PriceRow → Rat) (n : Nat) (rows : List PriceRow) :
    List PriceRow :=
  (rows.mergeSort (fun a b => decide (key a ≤ key b))).take n

/-- StockAnalyzer.get_top_losers: drop null change rates, keep only
strictly negative ones, then the topN smallest. -/
def getTopLosers (prices : List PriceRow) (topN : Nat) : List StockInfo :=
  if prices.isEmpty then [] else
  let valid := prices.filter (fun r => r.changeRate.isSome)
  let losers := valid.filter (fun r =>
    match r.changeRate with
    | some v => decide (v < 0)
    | none => false)
  convertToStockInfo (nsmallestBy (fun r => r.changeRate.getD 0) topN losers)

/-- C10: get_top_losers returns only stocks with a strictly negative
change rate, and a table whose non-null change rates are all
non-negative yields the empty list, not the smallest gainers. -/
theorem getTopLosers_only_negative (prices : List PriceRow) (topN : Nat) :
    (∀ s ∈ getTopLosers prices topN, s.changePct < 0) ∧
    ((∀ r ∈ prices, ∀ v, r.changeRate = some v → 0 ≤ v) →
      getTopLosers prices topN = []) := by
  constructor
  · intro s hs
    unfold getTopLosers at hs
    by_cases hemp : prices.isEmpty
    · rw [if_pos hemp] at hs
      simp at hs
    · rw [if_neg hemp] at hs
      simp only [convertToStockInfo, List.mem_map] at hs
      obtain ⟨r, hr, hconv⟩ := hs
      have hr2 : r ∈ (prices.filter (fun r => r.changeRate.isSome)).filter
          (fun r => match r.changeRate with
            | some v => decide (v < 0)
            | none => false) := by
        have h1 : r ∈ (((prices.filter (fun r => r.changeRate.isSome)).filter
            (fun r => match r.changeRate with
              | some v => decide (v < 0)
              | none => false)).mergeSort
              (fun a b => decide (a.changeRate.getD 0 ≤ b.changeRate.getD 0))) :=
          List.mem_of_mem_take hr
        exact (List.mergeSort_perm _ _).subset h1
      have hneg := (List.mem_filter.mp hr2).2
      rcases hcr : r.changeRate with _ | v
      · rw [hcr] at hneg
        simp at hneg
      · rw [hcr] at hneg
        simp only [decide_eq_true_eq] at hneg
        rw [← hconv]
        simpa [hcr] using hneg
  · intro hnn
    unfold getTopLosers
    by_cases hemp : prices.isEmpty
    · rw [if_pos hemp]
    · rw [if_neg hemp]
      have hlosers : (prices.filter (fun r => r.changeRate.isSome)).filter
          (fun r => match r.changeRate with
            | some v => decide (v < 0)
            | none => false) = [] := by
        rw [List.filter_eq_nil_iff]
        intro r hr
        have hrp : r ∈ prices := List.mem_of_mem_filter hr
        rcases hcr : r.changeRate with _ | v
        · simp [hcr]
        · have hv := hnn r hrp v hcr
          simpa [hcr] using hv
      show convertToStockInfo (nsmallestBy (fun r => r.changeRate.getD 0) topN
        ((prices.filter (fun r => r.changeRate.isSome)).filter
          (fun r => match r.changeRate with
            | some v => decide (v < 0)
            | none => false))) = []
      rw [hlosers]
      simp [nsmallestBy, convertToStockInfo]

/-- Witness for C10: a table with one advancing stock and one null
change rate yields no losers. -/
theorem getTopLosers_only_negative_witness :
    getTopLosers
      [⟨"1301", "A", 100, some 1, 10, 1000⟩,
       ⟨"1302", "B", 200, none, 20, 2000⟩] 3 = [] :=
  (getTopLosers_only_negative _ 3).2 (by decide)

/-! Weekly aggregator: aggregate_daily_quotes
(data/weekly_aggregator.py). -/

/-- One row of a daily quote DataFrame as consumed by
aggregate_daily_quotes: instrument code and the aggregated columns.
The company info columns (CompanyName and the sector pair) are absent
from the modelled rows, so the company info merge in the source does
not fire (info_cols stays [Code]). -/
structure QuoteRow where
  code : String
  openPrice : Rat
  high : Rat
  low : Rat
  close : Rat
  volume : Rat
  turnoverValue : Rat
deriving Repr, DecidableEq

/-- A quote row tagged with the TradeDate column the aggregator
assigns from the trading day its table came from. -/
structure TaggedQuoteRow extends QuoteRow where
  tradeDate : Int
deriving Repr, DecidableEq

/-- The (Code, TradeDate) lexicographic order of
combined_df.sort_values on Code and TradeDate. -/
def quoteLe (a b : TaggedQuoteRow) : Bool :=
  decide (a.code < b.code)
    || (a.code == b.code && decide (a.tradeDate ≤ b.tradeDate))

/-- One row of the weekly aggregate DataFrame. -/
structure WeeklyRow where
  code : String
  weekOpen : Rat
  weekHigh : Rat
  weekLow : Rat
  weekClose : Rat
  weekVolume : Rat
  weekTurnover : Rat
  tradingDays : Nat
  firstDate : Int
  lastDate : Int
  prevWeekClose : Option Rat
  weeklyReturn : Option Rat
deriving Repr, DecidableEq

/-- pandas groupby max aggregate over a group column; the default is
never used because aggregation groups are non-empty. -/
def groupMax [LinearOrder α] (dflt : α) : List α → α
  | [] => dflt
  | x :: xs => xs.foldl max x

/-- pandas groupby min aggregate over a group column. -/
def groupMin [LinearOrder α] (dflt : α) : List α → α
  | [] => dflt
  | x :: xs => xs.foldl min x

/-- The Code and Close columns of the previous week table. -/
abbrev PrevCloseTable := List (String × Rat)

/-- The previous week close an instrument receives from the left merge
with prev_close: none when no previous week table is supplied, when it
is empty, or when the code has no match.  The model takes the first
matching row, which coincides with the pandas left merge whenever
codes are unique in the previous week table, as they are in a
per-instrument close table. -/
def prevCloseLookup (prev : Option PrevCloseTable) (c : String) :
    Option Rat :=
  match prev with
  | none => none
  | some t =>
    if t.isEmpty then none
    else (t.find? (fun p => p.1 == c)).map (fun p => p.2)

/-- The aggregate row one Code group contributes.  The group g is in
sorted (Code, TradeDate) order, so the pandas first and last
aggregates are head and last, max and min fold over the column, sums
are sums, and TradeDate nunique is the number of distinct dates. -/
def aggRow (prev : Option PrevCloseTable) (c : String)
    (g : List TaggedQuoteRow) : WeeklyRow :=
  { code := c
    weekOpen := ((g.head?).map (fun r => r.openPrice)).getD 0
    weekHigh := groupMax 0 (g.map (fun r => r.high))
    weekLow := groupMin 0 (g.map (fun r => r.low))
    weekClose := ((g.getLast?).map (fun r => r.close)).getD 0
    weekVolume := (g.map (fun r => r.volume)).sum
    weekTurnover := (g.map (fun r => r.turnoverValue)).sum
    tradingDays := ((g.map (fun r => r.tradeDate)).dedup).length
    firstDate := groupMin 0 (g.map (fun r => r.tradeDate))
    lastDate := groupMax 0 (g.map (fun r => r.tradeDate))
    prevWeekClose := prevCloseLookup prev c
    weeklyReturn := (prevCloseLookup prev c).map (fun p =>
      ((((g.getLast?).map (fun r => r.close)).getD 0) - p) / p * 100) }

/-- The loop of aggregate_daily_quotes that collects the available
daily tables: each non-empty table contributes its rows tagged with
the TradeDate of its trading day, in trading-day order, and the
results are concatenated (pd.concat of daily_dfs). -/
def combinedRows : List (Int × List QuoteRow) → List TaggedQuoteRow
  | [] => []
  | (d, t) :: rest =>
    (if t.isEmpty then []
      else t.map (fun r => { toQuoteRow := r, tradeDate := d }))
      ++ combinedRows rest

/-- WeeklyDataAggregator.aggregate_daily_quotes.  The per-day tables
(cache hits or freshly fetched) arrive as (trading day, table) pairs
in trading-day order; empty tables are skipped; the concatenation is
sorted by (Code, TradeDate) with a stable merge sort as sort_values
does; groups are formed per Code with keys in sorted order as groupby
yields; each group is aggregated and left-merged with the previous
week closes. -/
def aggregateDailyQuotes (daily : List (Int × List QuoteRow))
    (prev : Option PrevCloseTable) : List WeeklyRow :=
  if daily.isEmpty then [] else
  if (combinedRows daily).isEmpty then [] else
  ((((combinedRows daily).mergeSort quoteLe).map
      (fun r => r.code)).dedup).map
    (fun c => aggRow prev c
      (((combinedRows daily).mergeSort quoteLe).filter
        (fun r => r.code == c)))

/-- The rows instrument c contributes across the week, in trading-day
order: the concatenation restricted to its code. -/
def codeRows (daily : List (Int × List QuoteRow)) (c : String) :
    List TaggedQuoteRow :=
  (combinedRows daily).filter (fun r => r.code == c)

theorem quoteLe_trans (a b c : TaggedQuoteRow) :
    quoteLe a b = true → quoteLe b c = true → quoteLe a c = true := by
  unfold quoteLe
  simp only [Bool.or_eq_true, Bool.and_eq_true, decide_eq_true_eq, beq_iff_eq]
  rintro (hab | ⟨hab, hab2⟩) (hbc | ⟨hbc, hbc2⟩)
  · exact Or.inl (hab.trans hbc)
  · exact Or.inl (hbc ▸ hab)
  · exact Or.inl (hab ▸ hbc)
  · exact Or.inr ⟨hab.trans hbc, hab2.trans hbc2⟩

theorem quoteLe_total (a b : TaggedQuoteRow) :
    (quoteLe a b || quoteLe b a) = true := by
  unfold quoteLe
  simp only [Bool.or_eq_true, Bool.and_eq_true, decide_eq_true_eq, beq_iff_eq]
  rcases lt_trichotomy a.code b.code with h | h | h
  · exact Or.inl (Or.inl h)
  · rcases le_total a.tradeDate b.tradeDate with h2 | h2
    · exact Or.inl (Or.inr ⟨h, h2⟩)
    · exact Or.inr (Or.inr ⟨h.symm, h2⟩)
  · exact Or.inr (Or.inl h)

theorem quoteLe_same_code (a b : TaggedQuoteRow) (c : String)
    (ha : a.code = c) (hb : b.code = c) (h : quoteLe a b = true) :
    a.tradeDate ≤ b.tradeDate := by
  unfold quoteLe at h
  simp only [Bool.or_eq_true, Bool.and_eq_true, decide_eq_true_eq,
    beq_iff_eq] at h
  rcases h with h | ⟨_, h2⟩
  · rw [ha, hb] at h
    exact absurd h (lt_irrefl c)
  · exact h2

theorem foldl_max_le_self [LinearOrder α] (l : List α) (a : α) :
    a ≤ l.foldl max a := by
  induction l generalizing a with
  | nil => exact le_refl a
  | cons x xs ih => exact le_trans (le_max_left a x) (ih (max a x))

theorem le_foldl_max [LinearOrder α] (l : List α) (a : α) :
    ∀ x ∈ l, x ≤ l.foldl max a := by
  induction l generalizing a with
  | nil => intro x hx; simp at hx
  | cons y ys ih =>
    intro x hx
    rcases List.mem_cons.mp hx with rfl | hx
    · exact le_trans (le_max_right a x) (foldl_max_le_self ys (max a x))
    · exact ih (max a y) x hx

theorem foldl_max_mem [LinearOrder α] (l : List α) (a : α) :
    l.foldl max a ∈ a :: l := by
  induction l generalizing a with
  | nil => exact List.mem_singleton.mpr rfl
  | cons x xs ih =>
    have h := ih (max a x)
    rcases List.mem_cons.mp h with h | h
    · rcases max_choice a x with hm | hm
      · exact List.mem_cons.mpr (Or.inl (h.trans hm))
      · refine List.mem_cons.mpr (Or.inr ?_)
        exact List.mem_cons.mpr (Or.inl (h.trans hm))
    · exact List.mem_cons.mpr (Or.inr (List.mem_cons.mpr (Or.inr h)))

theorem groupMax_mem [LinearOrder α] (dflt : α) (l : List α)
    (h : l ≠ []) : groupMax dflt l ∈ l := by
  cases l with
  | nil => exact absurd rfl h
  | cons x xs => exact foldl_max_mem xs x

theorem le_groupMax [LinearOrder α] (dflt : α) (l : List α) :
    ∀ x ∈ l, x ≤ groupMax dflt l := by
  cases l with
  | nil => intro x hx; simp at hx
  | cons y ys =>
    intro x hx
    rcases List.mem_cons.mp hx with rfl | hx
    · exact foldl_max_le_self ys x
    · exact le_foldl_max ys y x hx

theorem foldl_min_le_self [LinearOrder α] (l : List α) (a : α) :
    l.foldl min a ≤ a := by
  induction l generalizing a with
  | nil => exact le_refl a
  | cons x xs ih => exact le_trans (ih (min a x)) (min_le_left a x)

theorem foldl_min_le [LinearOrder α] (l : List α) (a : α) :
    ∀ x ∈ l, l.foldl min a ≤ x := by
  induction l generalizing a with
  | nil => intro x hx; simp at hx
  | cons y ys ih =>
    intro x hx
    rcases List.mem_cons.mp hx with rfl | hx
    · exact le_trans (foldl_min_le_self ys (min a x)) (min_le_right a x)
    · exact ih (min a y) x hx

theorem foldl_min_mem [LinearOrder α] (l : List α) (a : α) :
    l.foldl min a ∈ a :: l := by
  induction l generalizing a with
  | nil => exact List.mem_singleton.mpr rfl
  | cons x xs ih =>
    have h := ih (min a x)
    rcases List.mem_cons.mp h with h | h
    · rcases min_choice a x with hm | hm
      · exact List.mem_cons.mpr (Or.inl (h.trans hm))
      · refine List.mem_cons.mpr (Or.inr ?_)
        exact List.mem_cons.mpr (Or.inl (h.trans hm))
    · exact List.mem_cons.mpr (Or.inr (List.mem_cons.mpr (Or.inr h)))

theorem groupMin_mem [LinearOrder α] (dflt : α) (l : List α)
    (h : l ≠ []) : groupMin dflt l ∈ l := by
  cases l with
  | nil => exact absurd rfl h
  | cons x xs => exact foldl_min_mem xs x

theorem groupMin_le [LinearOrder α] (dflt : α) (l : List α) :
    ∀ x ∈ l, groupMin dflt l ≤ x := by
  cases l with
  | nil => intro x hx; simp at hx
  | cons y ys =>
    intro x hx
    rcases List.mem_cons.mp hx with rfl | hx
    · exact foldl_min_le_self ys x
    · exact foldl_min_le ys y x hx

theorem mem_combinedRows_day (daily : List (Int × List QuoteRow)) :
    ∀ r ∈ combinedRows daily, r.tradeDate ∈ daily.map Prod.fst := by
  induction daily with
  | nil => intro r hr; simp [combinedRows] at hr
  | cons p rest ih =>
    intro r hr
    obtain ⟨d, t⟩ := p
    simp only [combinedRows] at hr
    rcases List.mem_append.mp hr with h | h
    · by_cases he : t.isEmpty
      · rw [if_pos he] at h
        simp at h
      · rw [if_neg he] at h
        rw [List.mem_map] at h
        obtain ⟨q, hq, rfl⟩ := h
        simp
    · simp only [List.map_cons]
      exact List.mem_cons.mpr (Or.inr (ih r h))

theorem pairwise_of_length_le_one {l : List α} {R : α → α → Prop}
    (h : l.length ≤ 1) : l.Pairwise R := by
  match l with
  | [] => exact List.Pairwise.nil
  | [x] => simp
  | x :: y :: t => simp at h

theorem block_filter_le_one (t : List QuoteRow) (d : Int) (c : String)
    (hnd : (t.map (fun r => r.code)).Nodup) :
    ((t.map (fun r =>
      ({ toQuoteRow := r, tradeDate := d } : TaggedQuoteRow))).filter
        (fun r => r.code == c)).length ≤ 1 := by
  induction t with
  | nil => simp
  | cons q qs ih =>
    rw [List.map_cons, List.filter_cons]
    rw [List.map_cons, List.nodup_cons] at hnd
    by_cases hq : (({ toQuoteRow := q, tradeDate := d } :
        TaggedQuoteRow).code == c) = true
    · rw [if_pos hq]
      have hrest : ((qs.map (fun r =>
          ({ toQuoteRow := r, tradeDate := d } : TaggedQuoteRow))).filter
            (fun r => r.code == c)) = [] := by
        rw [List.filter_eq_nil_iff]
        intro x hx
        rw [List.mem_map] at hx
        obtain ⟨y, hy, rfl⟩ := hx
        simp only [beq_iff_eq] at hq ⊢
        intro hyc
        exact hnd.1 (by
          rw [show q.code = c from hq, ← hyc]
          exact List.mem_map_of_mem _ hy)
      rw [hrest]
      simp
    · rw [if_neg hq]
      exact ih hnd.2

theorem codeRows_cons (d : Int) (t : List QuoteRow)
    (rest : List (Int × List QuoteRow)) (c : String) :
    codeRows ((d, t) :: rest) c
      = ((if t.isEmpty then []
          else t.map (fun r =>
            ({ toQuoteRow := r, tradeDate := d } : TaggedQuoteRow))).filter
              (fun r => r.code == c)) ++ codeRows rest c := by
  unfold codeRows
  simp only [combinedRows, List.filter_append]

theorem codeRows_pairwise_lt (daily : List (Int × List QuoteRow))
    (c : String)
    (hdays : (daily.map Prod.fst).Pairwise (fun a b => a < b))
    (hcodes : ∀ p ∈ daily, (p.2.map (fun r => r.code)).Nodup) :
    (codeRows daily c).Pairwise
      (fun a b => a.tradeDate < b.tradeDate) := by
  induction daily with
  | nil => simp [codeRows, combinedRows]
  | cons p rest ih =>
    obtain ⟨d, t⟩ := p
    rw [codeRows_cons]
    rw [List.pairwise_append]
    rw [List.map_cons] at hdays
    have hd := List.pairwise_cons.mp hdays
    refine ⟨?_, ih hd.2 (fun q hq => hcodes q (List.mem_cons.mpr (Or.inr hq))), ?_⟩
    · by_cases he : t.isEmpty
      · rw [if_pos he]
        simp
      · rw [if_neg he]
        exact pairwise_of_length_le_one
          (block_filter_le_one t d c (hcodes (d, t) (List.mem_cons.mpr (Or.inl rfl))))
    · intro x hx y hy
      have hxd : x.tradeDate = d := by
        by_cases he : t.isEmpty
        · rw [if_pos he] at hx
          simp at hx
        · rw [if_neg he] at hx
          have := List.mem_of_mem_filter hx
          rw [List.mem_map] at this
          obtain ⟨q, hq, rfl⟩ := this
          rfl
      have hyd : y.tradeDate ∈ rest.map Prod.fst :=
        mem_combinedRows_day rest y (List.mem_of_mem_filter hy)
      rw [hxd]
      exact hd.1 _ hyd

theorem sorted_filter_eq_codeRows (daily : List (Int × List QuoteRow))
    (c : String)
    (hdays : (daily.map Prod.fst).Pairwise (fun a b => a < b))
    (hcodes : ∀ p ∈ daily, (p.2.map (fun r => r.code)).Nodup) :
    ((combinedRows daily).mergeSort quoteLe).filter
        (fun r => r.code == c)
      = codeRows daily c := by
  have hperm : (((combinedRows daily).mergeSort quoteLe).filter
      (fun r => r.code == c)).Perm (codeRows daily c) :=
    (List.mergeSort_perm (combinedRows daily) quoteLe).filter _
  have hsorted := List.sorted_mergeSort quoteLe_trans quoteLe_total
    (combinedRows daily)
  have hGle : (((combinedRows daily).mergeSort quoteLe).filter
      (fun r => r.code == c)).Pairwise
        (fun a b => a.tradeDate ≤ b.tradeDate) := by
    refine (hsorted.filter _).imp_of_mem ?_
    intro a b ha hb hab
    have ha2 : a.code = c := by simpa using (List.mem_filter.mp ha).2
    have hb2 : b.code = c := by simpa using (List.mem_filter.mp hb).2
    exact quoteLe_same_code a b c ha2 hb2 hab
  have hL := codeRows_pairwise_lt daily c hdays hcodes
  have hLnd : ((codeRows daily c).map (fun r => r.tradeDate)).Nodup := by
    have hne : (codeRows daily c).Pairwise
        (fun a b => a.tradeDate ≠ b.tradeDate) :=
      hL.imp (fun h => ne_of_lt h)
    exact (List.pairwise_map).mpr hne
  have hGnd : ((((combinedRows daily).mergeSort quoteLe).filter
      (fun r => r.code == c)).map (fun r => r.tradeDate)).Nodup :=
    ((hperm.map _).nodup_iff).mpr hLnd
  have hGlt : (((combinedRows daily).mergeSort quoteLe).filter
      (fun r => r.code == c)).Pairwise
        (fun a b => a.tradeDate < b.tradeDate) := by
    have hne := List.pairwise_map.mp hGnd
    exact (hGle.and hne).imp (fun h => lt_of_le_of_ne h.1 h.2)
  haveI : IsAntisymm TaggedQuoteRow (fun a b => a.tradeDate < b.tradeDate) :=
    ⟨fun a b h1 h2 => absurd (h1.trans h2) (lt_irrefl _)⟩
  exact List.eq_of_perm_of_sorted hperm hGlt hL

theorem map_row_filter_singleton (cs : List String)
    (f : String → WeeklyRow) (hf : ∀ x, (f x).code = x)
    (hnd : cs.Nodup) (c : String) (hc : c ∈ cs) :
    (cs.map f).filter (fun w => w.code == c) = [f c] := by
  induction cs with
  | nil => simp at hc
  | cons a t ih =>
    rw [List.map_cons, List.filter_cons]
    rw [List.nodup_cons] at hnd
    rcases List.mem_cons.mp hc with rfl | hc2
    · rw [if_pos (by simp [hf])]
      have hrest : (t.map f).filter (fun w => w.code == c) = [] := by
        rw [List.filter_eq_nil_iff]
        intro w hw
        rw [List.mem_map] at hw
        obtain ⟨x, hx, rfl⟩ := hw
        simp only [hf, beq_iff_eq]
        intro h
        exact hnd.1 (h ▸ hx)
      rw [hrest]
    · have hac : a ≠ c := fun h => hnd.1 (h ▸ hc2)
      rw [if_neg (by simp [hf, hac])]
      exact ih hnd.2 hc2

/-- Spec-side description for C1 of the weekly aggregate row of an
instrument c: the output has exactly one row for c; its week open and
close are the open of the earliest contribution and the close of the
latest contribution in date order; week high and low are the maximum
high and minimum low over its contributions; volume and turnover are
the sums; trading_days counts the distinct contributing days, which
equals the number of contributions. -/
def weeklyAggSpec (daily : List (Int × List QuoteRow))
    (prev : Option PrevCloseTable) (c : String) : Prop :=
  ∃ w : WeeklyRow,
    (aggregateDailyQuotes daily prev).filter (fun x => x.code == c) = [w] ∧
    (∃ r ∈ codeRows daily c,
      (∀ r2 ∈ codeRows daily c, r.tradeDate ≤ r2.tradeDate) ∧
      w.weekOpen = r.openPrice) ∧
    (∃ r ∈ codeRows daily c,
      (∀ r2 ∈ codeRows daily c, r2.tradeDate ≤ r.tradeDate) ∧
      w.weekClose = r.close) ∧
    w.weekHigh ∈ (codeRows daily c).map (fun r => r.high) ∧
    (∀ x ∈ (codeRows daily c).map (fun r => r.high), x ≤ w.weekHigh) ∧
    w.weekLow ∈ (codeRows daily c).map (fun r => r.low) ∧
    (∀ x ∈ (codeRows daily c).map (fun r => r.low), w.weekLow ≤ x) ∧
    w.weekVolume = ((codeRows daily c).map (fun r => r.volume)).sum ∧
    w.weekTurnover
      = ((codeRows daily c).map (fun r => r.turnoverValue)).sum ∧
    w.tradingDays
      = ((codeRows daily c).map (fun r => r.tradeDate)).dedup.length ∧
    w.tradingDays = (codeRows daily c).length

/-- C1: for a week given as strictly ascending trading days whose
tables list each instrument at most once per day, every instrument
appearing in any available day gets exactly one aggregate row, built
from first open and last close in date order, max high, min low,
summed volume and turnover, and the count of distinct contributing
days. -/
theorem aggregateDailyQuotes_weekly (daily : List (Int × List QuoteRow))
    (prev : Option PrevCloseTable) (c : String)
    (hdays : (daily.map Prod.fst).Pairwise (fun a b => a < b))
    (hcodes : ∀ p ∈ daily, (p.2.map (fun r => r.code)).Nodup)
    (hc : c ∈ (combinedRows daily).map (fun r => r.code)) :
    weeklyAggSpec daily prev c := by
  obtain ⟨r0c, hr0c, hr0code⟩ := List.mem_map.mp hc
  have hcomb_ne : combinedRows daily ≠ [] := List.ne_nil_of_mem hr0c
  have hd1 : ¬ daily.isEmpty = true := by
    cases daily with
    | nil => exact absurd rfl hcomb_ne
    | cons p rest => simp
  have hd2 : ¬ (combinedRows daily).isEmpty = true := by
    rw [List.isEmpty_iff]
    exact hcomb_ne
  have hout : aggregateDailyQuotes daily prev
      = ((((combinedRows daily).mergeSort quoteLe).map
          (fun r => r.code)).dedup).map
        (fun c => aggRow prev c
          (((combinedRows daily).mergeSort quoteLe).filter
            (fun r => r.code == c))) := by
    unfold aggregateDailyQuotes
    rw [if_neg hd1, if_neg hd2]
  have hmem_sorted : c ∈ ((combinedRows daily).mergeSort quoteLe).map
      (fun r => r.code) := by
    have hp := (List.mergeSort_perm (combinedRows daily) quoteLe).map
      (fun r => r.code)
    exact hp.mem_iff.mpr hc
  have hcodes_mem :
      c ∈ (((combinedRows daily).mergeSort quoteLe).map
        (fun r => r.code)).dedup :=
    List.mem_dedup.mpr hmem_sorted
  have hnd := List.nodup_dedup
    (((combinedRows daily).mergeSort quoteLe).map (fun r => r.code))
  have hGL := sorted_filter_eq_codeRows daily c hdays hcodes
  have hfil : (aggregateDailyQuotes daily prev).filter
      (fun x => x.code == c) = [aggRow prev c (codeRows daily c)] := by
    rw [hout, map_row_filter_singleton _ _ (fun x => rfl) hnd c hcodes_mem,
      hGL]
  have hL := codeRows_pairwise_lt daily c hdays hcodes
  have hLne : codeRows daily c ≠ [] := by
    refine List.ne_nil_of_mem (a := r0c) ?_
    exact List.mem_filter.mpr ⟨hr0c, by simp [hr0code]⟩
  have hLnd : ((codeRows daily c).map (fun r => r.tradeDate)).Nodup :=
    (List.pairwise_map).mpr (hL.imp (fun h => ne_of_lt h))
  refine ⟨aggRow prev c (codeRows daily c), hfil,
    ?_, ?_, ?_, ?_, ?_, ?_, rfl, rfl, rfl, ?_⟩
  · rcases hLl : codeRows daily c with _ | ⟨rh, t0⟩
    · exact absurd hLl hLne
    · rw [hLl] at hL
      refine ⟨rh, List.mem_cons.mpr (Or.inl rfl), ?_, rfl⟩
      intro r2 hr2
      rcases List.mem_cons.mp hr2 with rfl | hr2b
      · exact le_refl _
      · exact le_of_lt ((List.pairwise_cons.mp hL).1 r2 hr2b)
  · have hrevp : ((codeRows daily c).reverse).Pairwise
        (fun a b => b.tradeDate < a.tradeDate) :=
      (List.pairwise_reverse).mpr hL
    rcases hRl : (codeRows daily c).reverse with _ | ⟨rl, t1⟩
    · exact absurd (List.reverse_eq_nil_iff.mp hRl) hLne
    · rw [hRl] at hrevp
      refine ⟨rl, ?_, ?_, ?_⟩
      · rw [← List.mem_reverse, hRl]
        exact List.mem_cons.mpr (Or.inl rfl)
      · intro r2 hr2
        have hr2r : r2 ∈ (codeRows daily c).reverse :=
          List.mem_reverse.mpr hr2
        rw [hRl] at hr2r
        rcases List.mem_cons.mp hr2r with rfl | hr2b
        · exact le_refl _
        · exact le_of_lt ((List.pairwise_cons.mp hrevp).1 r2 hr2b)
      · show ((codeRows daily c).getLast?.map (fun r => r.close)).getD 0
          = rl.close
        rw [List.getLast?_eq_head?_reverse, hRl]
        rfl
  · exact groupMax_mem _ _ (by simpa using hLne)
  · exact le_groupMax _ _
  · exact groupMin_mem _ _ (by simpa using hLne)
  · exact groupMin_le _ _
  · show ((codeRows daily c).map (fun r => r.tradeDate)).dedup.length
      = (codeRows daily c).length
    rw [List.dedup_eq_self.mpr hLnd, List.length_map]

/-- The end-to-end example of the spec: one instrument with the five
Monday..Friday opens 10..14 and closes 10.5..14.5. -/
def c1Daily : List (Int × List QuoteRow) :=
  [(1, [⟨"1301", 10, (106 : Rat) / 10, (99 : Rat) / 10, (105 : Rat) / 10,
    100, 1000⟩]),
   (2, [⟨"1301", 11, (116 : Rat) / 10, (109 : Rat) / 10, (115 : Rat) / 10,
    110, 1100⟩]),
   (3, [⟨"1301", 12, (126 : Rat) / 10, (119 : Rat) / 10, (125 : Rat) / 10,
    120, 1200⟩]),
   (4, [⟨"1301", 13, (136 : Rat) / 10, (129 : Rat) / 10, (135 : Rat) / 10,
    130, 1300⟩]),
   (5, [⟨"1301", 14, (146 : Rat) / 10, (139 : Rat) / 10, (145 : Rat) / 10,
    140, 1400⟩])]

/-- Witness for C1 on the five-day example of the spec. -/
theorem aggregateDailyQuotes_weekly_witness :
    weeklyAggSpec c1Daily none "1301" :=
  aggregateDailyQuotes_weekly c1Daily none "1301" (by decide) (by decide)
    (by decide)

/-- C6: an instrument present in the weekly aggregate whose code has
no match in the previous week close table, or aggregated with no
previous week table at all, gets a null weekly return and a null
previous week close, never zero; an instrument whose code matches a
previous close pc gets (week_close - pc) / pc * 100. -/
theorem aggregateDailyQuotes_null_return
    (daily : List (Int × List QuoteRow)) (prev : Option PrevCloseTable)
    (w : WeeklyRow) (hw : w ∈ aggregateDailyQuotes daily prev) :
    (prevCloseLookup prev w.code = none →
      w.weeklyReturn = none ∧ w.prevWeekClose = none) ∧
    (∀ pc, prevCloseLookup prev w.code = some pc →
      w.weeklyReturn = some ((w.weekClose - pc) / pc * 100) ∧
      w.prevWeekClose = some pc) := by
  unfold aggregateDailyQuotes at hw
  by_cases h1 : daily.isEmpty
  · rw [if_pos h1] at hw
    simp at hw
  · rw [if_neg h1] at hw
    by_cases h2 : (combinedRows daily).isEmpty
    · rw [if_pos h2] at hw
      simp at hw
    · rw [if_neg h2] at hw
      rw [List.mem_map] at hw
      obtain ⟨c, hcmem, rfl⟩ := hw
      refine ⟨fun hnone => ?_, fun pc hpc => ?_⟩
      · have hnone2 : prevCloseLookup prev c = none := hnone
        constructor
        · change (prevCloseLookup prev c).map _ = none
          rw [hnone2]
          rfl
        · exact hnone2
      · have hpc2 : prevCloseLookup prev c = some pc := hpc
        constructor
        · change (prevCloseLookup prev c).map _ = some _
          rw [hpc2]
          rfl
        · exact hpc2

/-- One-day, one-instrument week for the C6 witness. -/
def c6Daily : List (Int × List QuoteRow) :=
  [(1, [⟨"1301", 10, 12, 9, 11, 100, 1000⟩])]

/-- Previous week close table without the instrument of c6Daily. -/
def c6Prev : PrevCloseTable := [("9999", 10)]

theorem aggregateDailyQuotes_c6_eval :
    aggregateDailyQuotes c6Daily (some c6Prev)
      = [aggRow (some c6Prev) "1301"
          [⟨⟨"1301", 10, 12, 9, 11, 100, 1000⟩, 1⟩]] := by
  have hcomb : combinedRows c6Daily
      = [⟨⟨"1301", 10, 12, 9, 11, 100, 1000⟩, 1⟩] := rfl
  unfold aggregateDailyQuotes
  rw [hcomb, List.mergeSort_singleton]
  rfl

/-- Witness for C6: the only aggregate row of the one-day week gets a
null weekly return and a null previous close, since its code is
missing from the previous week table. -/
theorem aggregateDailyQuotes_null_return_witness :
    (aggregateDailyQuotes c6Daily (some c6Prev)).map
      (fun w => (w.weeklyReturn, w.prevWeekClose)) = [(none, none)] := by
  have hw : aggRow (some c6Prev) "1301"
      [⟨⟨"1301", 10, 12, 9, 11, 100, 1000⟩, 1⟩]
      ∈ aggregateDailyQuotes c6Daily (some c6Prev) := by
    rw [aggregateDailyQuotes_c6_eval]
    exact List.mem_cons.mpr (Or.inl rfl)
  have hpair := (aggregateDailyQuotes_null_return c6Daily (some c6Prev)
    _ hw).1 (by decide)
  rw [aggregateDailyQuotes_c6_eval, List.map_cons, List.map_nil,
    hpair.1, hpair.2]

/-! Technical analyzer (analysis/technical.py). -/

/-- One row of the historical DataFrame consumed by the technical
analyzer: instrument code, the Date column, the nullable ChangeRate
column and the Close column. -/
structure HistRow where
  code : String
  date : Int
  changeRate : Option Rat
  close : Rat
deriving Repr, DecidableEq

/-- pandas DataFrame.tail(n) and groupby-tail(n): the last n elements
in order. -/
def tailN (n : Nat) (l : List α) : List α := l.drop (l.length - n)

/-- advancing = (ChangeRate greater than 0).sum: a NaN change rate
compares false. -/
def advCount (rows : List HistRow) : Nat :=
  rows.countP (fun r =>
    match r.changeRate with
    | some v => decide (0 < v)
    | none => false)

/-- declining = (ChangeRate less than 0).sum: a NaN change rate
compares false. -/
def decCount (rows : List HistRow) : Nat :=
  rows.countP (fun r =>
    match r.changeRate with
    | some v => decide (v < 0)
    | none => false)

/-- groupby(Date) with the advancing and declining aggregates; pandas
sorts the group keys, so the dates come in ascending order. -/
def adrDailyStats (recent : List HistRow) : List (Int × Nat × Nat) :=
  (((recent.map (fun r => r.date)).dedup).mergeSort
      (fun a b => decide (a ≤ b))).map
    (fun d => (d, advCount (recent.filter (fun r => r.date == d)),
                  decCount (recent.filter (fun r => r.date == d))))

/-- Total advancing and declining issue counts over the last period
days of daily statistics, as summed by
calculate_advance_decline_ratio. -/
def adrTotals (hist : List HistRow) (period : Nat) : Nat × Nat :=
  let stats := tailN period (adrDailyStats (tailN (period * 1000) hist))
  ((stats.map (fun s => s.2.1)).sum, (stats.map (fun s => s.2.2)).sum)

/-- TechnicalAnalyzer.calculate_advance_decline_ratio.  The minimum
required day count int(period * 0.8) is period * 4 / 5, which agrees
with the float truncation at every realistic period. -/
def advanceDeclineRatioCalc (hist : List HistRow) (period : Nat) :
    Option Rat :=
  if hist.isEmpty then none else
  if (tailN (period * 1000) hist).length < period then none else
  if (tailN period (adrDailyStats (tailN (period * 1000) hist))).length
      < period * 4 / 5 then none else
  if (adrTotals hist period).2 == 0 then none
  else some (((adrTotals hist period).1 : Rat)
    / ((adrTotals hist period).2 : Rat) * 100)

/-- C4: the trailing-period advance-decline ratio is
(advancing / declining) * 100 whenever it is produced, and it is null
whenever the total declining count over the window is zero; division
by zero never happens because the zero case is filtered out first. -/
theorem advanceDeclineRatioCalc_safe (hist : List HistRow) (period : Nat) :
    ((adrTotals hist period).2 = 0 →
      advanceDeclineRatioCalc hist period = none) ∧
    (∀ r, advanceDeclineRatioCalc hist period = some r →
      (adrTotals hist period).2 ≠ 0 ∧
      r = ((adrTotals hist period).1 : Rat)
        / ((adrTotals hist period).2 : Rat) * 100) := by
  unfold advanceDeclineRatioCalc
  split_ifs with h1 h2 h3 h4
  · exact ⟨fun _ => rfl, fun r hr => absurd hr (by simp)⟩
  · exact ⟨fun _ => rfl, fun r hr => absurd hr (by simp)⟩
  · exact ⟨fun _ => rfl, fun r hr => absurd hr (by simp)⟩
  · exact ⟨fun _ => rfl, fun r hr => absurd hr (by simp)⟩
  · refine ⟨fun hz => absurd hz (by simpa using h4), fun r hr => ?_⟩
    refine ⟨by simpa using h4, ?_⟩
    exact (Option.some_inj.mp hr).symm

/-- Witness for C4: a one-row history with a single advancing issue
and period 1 has zero total decliners, and the ratio is null rather
than infinite. -/
theorem advanceDeclineRatioCalc_safe_witness :
    (adrTotals [⟨"A", 1, some 5, 100⟩] 1).2 = 0 ∧
    (adrTotals [⟨"A", 1, some 5, 100⟩] 1).1 = 1 ∧
    advanceDeclineRatioCalc [⟨"A", 1, some 5, 100⟩] 1 = none := by
  have hstats : adrTotals [⟨"A", 1, some 5, 100⟩] 1 = (1, 0) := by
    unfold adrTotals adrDailyStats
    rw [show tailN (1 * 1000) [(⟨"A", 1, some 5, 100⟩ : HistRow)]
        = [⟨"A", 1, some 5, 100⟩] from rfl,
      show (([(⟨"A", 1, some 5, 100⟩ : HistRow)]).map
        (fun r => r.date)).dedup = [1] from rfl,
      List.mergeSort_singleton]
    rfl
  exact ⟨by rw [hstats], by rw [hstats],
    (advanceDeclineRatioCalc_safe [⟨"A", 1, some 5, 100⟩] 1).1
      (by rw [hstats])⟩

/-- groupby(Code)[Close].tail(period) regrouped and averaged: the mean
of the last period closes each instrument actually has.  The source
imposes no minimum presence requirement here; however few rows an
instrument has, their mean is taken.  An instrument absent from the
historical data yields none (it stays NaN after the left merge). -/
def maValue (hist : List HistRow) (c : String) (period : Nat) :
    Option Rat :=
  let closes := tailN period
    ((hist.filter (fun r => r.code == c)).map (fun r => r.close))
  if closes.isEmpty then none
  else some (closes.sum / (closes.length : Rat))

/-- The current table left-merged with the per-instrument moving
average (result_df after the merge in calculate_ma_divergence). -/
def mergedMa (current : List PriceRow) (hist : List HistRow)
    (period : Nat) : List (PriceRow × Option Rat) :=
  current.map (fun r => (r, maValue hist r.code period))

/-- The per-row divergence percent column after dropna: rows whose
moving average is NaN disappear. -/
def validDivergences (current : List PriceRow) (hist : List HistRow)
    (period : Nat) : List Rat :=
  (mergedMa current hist period).filterMap (fun p =>
    match p.2 with
    | some ma => some ((p.1.close - ma) / ma * 100)
    | none => none)

/-- TechnicalAnalyzer.calculate_ma_divergence: the aggregates are the
mean divergence over the non-NaN rows and the share of instruments
above their MA among those with an MA.  A zero moving average would
give an infinite divergence in pandas; rational division by zero gives
0 instead, a case no claim exercises. -/
def calculateMaDivergence (current : List PriceRow) (hist : List HistRow)
    (period : Nat) : Option Rat × Option Rat :=
  if current.isEmpty || hist.isEmpty then (none, none) else
  if (validDivergences current hist period).isEmpty then (none, none) else
  (some ((validDivergences current hist period).sum
      / ((validDivergences current hist period).length : Rat)),
    if 0 < (mergedMa current hist period).countP (fun p => p.2.isSome)
      then some
        ((((mergedMa current hist period).countP (fun p =>
            match p.2 with
            | some ma => decide (ma < p.1.close)
            | none => false)) : Rat)
          / (((mergedMa current hist period).countP
              (fun p => p.2.isSome)) : Rat) * 100)
      else none)

/-- Current and historical tables exhibiting the missing presence
check: instrument A has one historical day out of a 25-day window. -/
def c5Current : List PriceRow := [⟨"A", "A Corp", 100, none, 0, 0⟩]

def c5Hist : List HistRow := [⟨"A", 1, none, 50⟩]

/-- Counterexample to C5: instrument A has 1 of the 25 window days,
far below the 80 percent minimum of 20 days, yet its moving average is
50 rather than null, and it enters both the aggregate divergence and
the percent-above-MA statistic. -/
theorem maDivergence_presence_counterexample :
    (c5Hist.filter (fun r => r.code == "A")).length = 1 ∧
    1 < 25 * 4 / 5 ∧
    maValue c5Hist "A" 25 = some 50 ∧
    calculateMaDivergence c5Current c5Hist 25 = (some 100, some 100) := by
  have hmv : maValue c5Hist "A" 25 = some 50 := by
    unfold maValue c5Hist
    norm_num [tailN]
  have hmerged : mergedMa c5Current c5Hist 25
      = [(⟨"A", "A Corp", 100, none, 0, 0⟩, some 50)] := by
    unfold mergedMa c5Current
    rw [List.map_cons, List.map_nil]
    rw [show (⟨"A", "A Corp", 100, none, 0, 0⟩ : PriceRow).code = "A" from rfl,
      hmv]
  have hvd : validDivergences c5Current c5Hist 25 = [100] := by
    unfold validDivergences
    rw [hmerged]
    norm_num [List.filterMap]
  refine ⟨by decide, by decide, hmv, ?_⟩
  unfold calculateMaDivergence
  rw [hvd, hmerged,
    if_neg (by decide : ¬ (c5Current.isEmpty || c5Hist.isEmpty) = true)]
  norm_num

/-- C5 amended: the trailing mean close is taken over however many of
the last period closes exist, with no minimum presence requirement: an
instrument gets a null moving average exactly when it has no
historical rows at all, the produced mean satisfies
mean times count = sum of the available closes, and the aggregate
divergence is null exactly when no current instrument has any
historical row. -/
theorem maDivergence_uses_available_data (current : List PriceRow)
    (hist : List HistRow) (period : Nat) (hp : 0 < period) :
    (∀ c, maValue hist c period = none ↔ ∀ r ∈ hist, r.code ≠ c) ∧
    (∀ c m, maValue hist c period = some m →
      m * ((tailN period ((hist.filter (fun r => r.code == c)).map
          (fun r => r.close))).length : Rat)
        = (tailN period ((hist.filter (fun r => r.code == c)).map
            (fun r => r.close))).sum) ∧
    (¬ current.isEmpty → ¬ hist.isEmpty →
      ((calculateMaDivergence current hist period).1 = none ↔
        ∀ r ∈ current, ∀ h ∈ hist, h.code ≠ r.code)) := by
  have hma : ∀ c, maValue hist c period = none ↔ ∀ r ∈ hist, r.code ≠ c := by
    intro c
    unfold maValue
    constructor
    · intro hnone r hr hc
      by_cases hemp : (tailN period ((hist.filter (fun r => r.code == c)).map
          (fun r => r.close))).isEmpty
      · have hfl : r ∈ hist.filter (fun x => x.code == c) :=
          List.mem_filter.mpr ⟨hr, by simp [hc]⟩
        have hpos : 0 < ((hist.filter (fun x => x.code == c)).map
            (fun x => x.close)).length := by
          rw [List.length_map]
          exact List.length_pos_of_mem hfl
        have hlen0 : (tailN period ((hist.filter (fun r => r.code == c)).map
            (fun r => r.close))).length = 0 := by
          rw [List.isEmpty_iff] at hemp
          rw [hemp]
          rfl
        unfold tailN at hlen0
        rw [List.length_drop] at hlen0
        omega
      · rw [if_neg hemp] at hnone
        exact absurd hnone (by simp)
    · intro hall
      have hfil : hist.filter (fun r => r.code == c) = [] := by
        rw [List.filter_eq_nil_iff]
        intro r hr
        simpa using hall r hr
      rw [hfil]
      simp [tailN]
  refine ⟨hma, ?_, ?_⟩
  · intro c m hm
    unfold maValue at hm
    by_cases hemp : (tailN period ((hist.filter (fun r => r.code == c)).map
        (fun r => r.close))).isEmpty
    · rw [if_pos hemp] at hm
      exact absurd hm (by simp)
    · rw [if_neg hemp] at hm
      have hm2 := (Option.some_inj.mp hm).symm
      have hlen : ((tailN period ((hist.filter (fun r => r.code == c)).map
          (fun r => r.close))).length : Rat) ≠ 0 := by
        rw [List.isEmpty_iff] at hemp
        have hne : (tailN period ((hist.filter (fun r => r.code == c)).map
            (fun r => r.close))).length ≠ 0 := fun h =>
          hemp (List.length_eq_zero.mp h)
        exact_mod_cast hne
      rw [hm2, div_mul_cancel₀ _ hlen]
  · intro hc hh
    have hif : ¬ (current.isEmpty || hist.isEmpty) = true := by
      simp [hc, hh]
    unfold calculateMaDivergence
    rw [if_neg hif]
    by_cases hemp : (validDivergences current hist period).isEmpty
    · rw [if_pos hemp]
      constructor
      · intro _ r hr h hh2
        rw [List.isEmpty_iff, validDivergences,
          List.filterMap_eq_nil_iff] at hemp
        have hmem : (r, maValue hist r.code period)
            ∈ mergedMa current hist period :=
          List.mem_map_of_mem _ hr
        have hval := hemp _ hmem
        rcases hmv : maValue hist r.code period with _ | mv
        · exact (hma r.code).mp hmv h hh2
        · rw [hmv] at hval
          exact absurd hval (by simp)
      · intro _
        rfl
    · rw [if_neg hemp]
      constructor
      · intro hnone
        exact absurd hnone (by simp)
      · intro hall
        exfalso
        apply hemp
        rw [List.isEmpty_iff, validDivergences, List.filterMap_eq_nil_iff]
        intro p hp
        rw [mergedMa, List.mem_map] at hp
        obtain ⟨r, hr, rfl⟩ := hp
        have hmv : maValue hist r.code period = none :=
          (hma r.code).mpr (fun rr hrr => hall r hr rr hrr)
        rw [hmv]


/-- Witness for the amended C5: with a positive period, an instrument
absent from the historical data gets a null moving average. -/
theorem maDivergence_uses_available_data_witness :
    (0 : Nat) < 25 ∧ maValue c5Hist "B" 25 = none :=
  ⟨by decide,
    ((maDivergence_uses_available_data c5Current c5Hist 25 (by decide)).1
      "B").mpr (by decide)⟩

end JQR
